import Mathlib

/-!
A verification development for the PyDocSmith common module
(`PyDocSmith/common.py`): the docstring data model, the keyword
classification tables, and the `format_docstring_to_pep257`
normalization pass.

The Python code is shallowly embedded: strings are `String`/`List Char`,
Python `int` is `Int`, fallible code returns an explicit error component.
`format_docstring_to_pep257` mutates its argument in place and can raise;
we model it as a function returning the final state of the docstring
together with an optional raised error (`Docstring × Option PyErr`), so
that partial in-place updates made before an exception are visible.

The normalization pass delegates text reflow to the standard library
`textwrap.fill` with default options (`break_long_words=True`,
`break_on_hyphens=True`, `drop_whitespace=True`, `expand_tabs=True`,
`replace_whitespace=True`, `tabsize=8`, empty indents, `max_lines=None`).
That code path of `textwrap` (CPython `Lib/textwrap.py`) is embedded
below as well: `mungeWhitespace`, `splitChunks` (the `wordsep_re`
chunker), `handleLongWord`, `wrapChunks` and `textwrapFill`.

Scope note: character classes (`\w`, `[^\d\W]`, `str.strip`) are modelled
for ASCII text; code points above 127 are treated as letters.  Python's
recognized whitespace in `textwrap` is hardcoded to the six US-ASCII
whitespace characters, which is modelled exactly.
-/

/-- Errors the embedded Python code can raise. -/
inductive PyErr where
  | valueError
  | attributeError
  | typeError
deriving DecidableEq, Repr

/-- The six characters of `textwrap._whitespace` = `'\t\n\x0b\x0c\r '`;
also the ASCII part of what `str.strip()` strips. -/
def isPyWS (c : Char) : Bool :=
  c == ' ' || c == '\t' || c == '\n' || c == '\x0b' || c == '\x0c' || c == '\r'

/-- `str.strip()` on a character list: drop leading and trailing whitespace. -/
def pyStripList (cs : List Char) : List Char :=
  ((cs.dropWhile isPyWS).reverse.dropWhile isPyWS).reverse

/-- `str.strip()` (ASCII whitespace). -/
def pyStrip (s : String) : String :=
  ⟨pyStripList s.data⟩

/-- Python truthiness of an optional string: `None` and `""` are falsy. -/
def truthy : Option String → Bool
  | none => false
  | some s => !(s == "")

/-- `str.expandtabs(8)`: each tab becomes spaces up to the next multiple
of 8 in the current column; the column resets after a newline or a
carriage return. -/
def expandtabsAux : List Char → Nat → List Char
  | [], _ => []
  | c :: rest, col =>
    if c == '\t' then
      let incr := 8 - col % 8
      List.replicate incr ' ' ++ expandtabsAux rest (col + incr)
    else if c == '\n' || c == '\r' then
      c :: expandtabsAux rest 0
    else
      c :: expandtabsAux rest (col + 1)

/-- One character of `TextWrapper.unicode_whitespace_trans`: recognized
whitespace becomes a space, everything else is kept. -/
def mungeChar (c : Char) : Char :=
  if isPyWS c then ' ' else c

/-- `TextWrapper._munge_whitespace`: expand tabs, then replace each
recognized whitespace character by a space. -/
def mungeWhitespace (cs : List Char) : List Char :=
  (expandtabsAux cs 0).map mungeChar

/-- Python regex `\w` (word character), ASCII-accurate; code points above
127 are approximated as word characters. -/
def isWordChar (c : Char) : Bool :=
  c.isAlphanum || c == '_' || decide (127 < c.toNat)

/-- Python regex `[^\d\W]` from `TextWrapper`: a word character that is
not a digit (a letter or an underscore). -/
def isLetterChar (c : Char) : Bool :=
  isWordChar c && !c.isDigit

/-- Python regex `[\w!"\x27&.,?]` (`TextWrapper.word_punct`). -/
def isWordPunct (c : Char) : Bool :=
  isWordChar c || c == '!' || c == '"' || c == Char.ofNat 39 ||
    c == '&' || c == '.' || c == ',' || c == '?'

/-- The lookahead `(?=-{2,}\w)` of `wordsep_re`: at least two hyphens
followed by a word character.  The greedy `-{2,}` can only succeed by
consuming the whole hyphen run, since a hyphen is not a word character. -/
def emDashAhead (cs : List Char) : Bool :=
  let dashes := cs.takeWhile (fun c => c == '-')
  decide (2 ≤ dashes.length) &&
    (match cs.drop dashes.length with
     | c :: _ => isWordChar c
     | [] => false)

/-- The lookbehind alternatives `(?<=[^\d\W]{2}-)` and
`(?<=[^\d\W]-[^\d\W]-)` of the hyphenated-word rule, tested just before
consuming the hyphen.  `acc` is the word accumulated so far, in reverse
order, so its head is the last consumed character. -/
def hyphenBreakBehind : List Char → Bool
  | a :: b :: rest =>
    (isLetterChar a && isLetterChar b) ||
      (isLetterChar a && b == '-' &&
        (match rest with
         | z :: _ => isLetterChar z
         | [] => false))
  | _ => false

/-- The lookahead `(?=[^\d\W]-?[^\d\W])` of the hyphenated-word rule. -/
def hyphenLookahead : List Char → Bool
  | a :: b :: rest =>
    isLetterChar a &&
      (isLetterChar b ||
        (b == '-' &&
          (match rest with
           | d :: _ => isLetterChar d
           | [] => false)))
  | _ => false

/-- The lazy word scan `[^ \t\n\x0b\x0c\r]+?(?: ... )` of `wordsep_re`,
restricted to a run without whitespace.  `acc` is the nonempty reversed
prefix already consumed.  At each position the regex engine first tries
the hyphenated-word break (which consumes the hyphen), then end-of-word
(which inside a run can only fire at the end of the run), then the
em-dash lookahead; otherwise the lazy quantifier consumes one more
character.  Returns the finished chunk and the remaining characters. -/
def scanWord (acc : List Char) : List Char → List Char × List Char
  | [] => (acc.reverse, [])
  | c :: rest =>
    if c == '-' && hyphenBreakBehind acc && hyphenLookahead rest then
      ((c :: acc).reverse, rest)
    else if isWordPunct (acc.headD ' ') && emDashAhead (c :: rest) then
      (acc.reverse, c :: rest)
    else
      scanWord (c :: acc) rest

theorem scanWord_rest_length_le (acc : List Char) (cs : List Char) :
    (scanWord acc cs).2.length ≤ cs.length := by
  induction cs generalizing acc with
  | nil => simp [scanWord]
  | cons c rest ih =>
    simp only [scanWord]
    split
    · simp
    · split
      · simp
      · exact Nat.le_trans (ih (c :: acc)) (Nat.le_succ _)

theorem scanWord_fst_ne_nil (acc : List Char) (cs : List Char)
    (h : acc ≠ []) : (scanWord acc cs).1 ≠ [] := by
  induction cs generalizing acc with
  | nil => simpa [scanWord] using h
  | cons c rest ih =>
    simp only [scanWord]
    split
    · simp
    · split
      · simpa using h
      · exact ih (c :: acc) (by simp)

/-- Splitting one whitespace-free run of text into chunks, following
the alternation order of `wordsep_re`.  `prev` is the character
immediately before the current position (the last character of the
previous chunk of this run), used by the em-dash lookbehind
`(?<=[\w!"\x27&.,?])`; at the start of a run the previous character is
whitespace or absent, which is never word punctuation.

The recursion consumes at least one character per produced chunk; the
`fuel` parameter only makes the recursion structural and is irrelevant
as long as it exceeds the number of remaining characters
(`splitWordRunF_congr`); `splitWordRun` instantiates it accordingly. -/
def splitWordRunF : Nat → Option Char → List Char → List (List Char)
  | 0, _, _ => []
  | _ + 1, _, [] => []
  | fuel + 1, prev, c :: rest =>
    if (match prev with
        | some p => isWordPunct p
        | none => false) && emDashAhead (c :: rest) then
      -- em-dash chunk `(?<=wp)-{2,}(?=\w)`: consumes the whole hyphen
      -- run; under the guard `c` is a hyphen, so the run is
      -- `c :: rest.takeWhile (· == '-')`.
      let dashesTail := rest.takeWhile (fun x => x == '-')
      (c :: dashesTail) :: splitWordRunF fuel (some '-') (rest.drop dashesTail.length)
    else
      let w := scanWord [c] rest
      w.1 :: splitWordRunF fuel w.1.getLast? w.2

theorem splitWordRunF_congr :
    ∀ (f1 f2 : Nat) (prev : Option Char) (cs : List Char),
      cs.length < f1 → cs.length < f2 →
      splitWordRunF f1 prev cs = splitWordRunF f2 prev cs := by
  intro f1
  induction f1 with
  | zero => intro f2 prev cs h1 h2; omega
  | succ f ih =>
    intro f2 prev cs h1 h2
    cases f2 with
    | zero => omega
    | succ g =>
      cases cs with
      | nil => rfl
      | cons c rest =>
        simp only [splitWordRunF]
        split
        · have hd : (rest.drop (rest.takeWhile (fun x => x == '-')).length).length ≤
              rest.length := by
            simp [List.length_drop]
          simp only [List.length_cons] at h1 h2
          rw [ih g (some '-') _ (by omega) (by omega)]
        · have hs := scanWord_rest_length_le [c] rest
          simp only [List.length_cons] at h1 h2
          rw [ih g _ _ (by omega) (by omega)]

def splitWordRun (prev : Option Char) (cs : List Char) : List (List Char) :=
  splitWordRunF (cs.length + 1) prev cs

/-- `TextWrapper._split` with `break_on_hyphens=True`: decompose the
text into maximal whitespace / non-whitespace runs; a whitespace run is
one chunk (`[\t\n\x0b\x0c\r ]+`), a non-whitespace run is split by the
word rules.  Empty strings produced by `re.split` are discarded, which
the run decomposition never produces anyway.  As above, `fuel` only
makes the recursion structural. -/
def splitChunksAuxF : Nat → List Char → List (List Char)
  | 0, _ => []
  | _ + 1, [] => []
  | fuel + 1, c :: rest =>
    if isPyWS c then
      (c :: rest.takeWhile isPyWS) :: splitChunksAuxF fuel (rest.dropWhile isPyWS)
    else
      splitWordRun none (c :: rest.takeWhile (fun x => !isPyWS x)) ++
        splitChunksAuxF fuel (rest.dropWhile (fun x => !isPyWS x))

theorem splitChunksAuxF_congr :
    ∀ (f1 f2 : Nat) (cs : List Char),
      cs.length < f1 → cs.length < f2 →
      splitChunksAuxF f1 cs = splitChunksAuxF f2 cs := by
  intro f1
  induction f1 with
  | zero => intro f2 cs h1 h2; omega
  | succ f ih =>
    intro f2 cs h1 h2
    cases f2 with
    | zero => omega
    | succ g =>
      cases cs with
      | nil => rfl
      | cons c rest =>
        have hd1 := (List.dropWhile_sublist (l := rest) isPyWS).length_le
        have hd2 := (List.dropWhile_sublist (l := rest) (fun x => !isPyWS x)).length_le
        simp only [List.length_cons] at h1 h2
        simp only [splitChunksAuxF]
        split
        · rw [ih g _ (by omega) (by omega)]
        · rw [ih g _ (by omega) (by omega)]

def splitChunksAux (cs : List Char) : List (List Char) :=
  splitChunksAuxF (cs.length + 1) cs

/-- `TextWrapper._split_chunks`: munge whitespace, then split. -/
def splitChunks (cs : List Char) : List (List Char) :=
  splitChunksAux (mungeWhitespace cs)

/-- Total length of a list of chunks. -/
def sumLen (l : List (List Char)) : Nat :=
  (l.map List.length).sum

/-- The inner `while chunks:` loop of `_wrap_chunks`: greedily move
chunks onto the current line while they fit. Returns the chunks taken
and the chunks left. -/
def takeGreedy (width : Nat) : Nat → List (List Char) → List (List Char) × List (List Char)
  | _, [] => ([], [])
  | curLen, c :: rest =>
    if curLen + c.length ≤ width then
      let p := takeGreedy width (curLen + c.length) rest
      (c :: p.1, p.2)
    else
      ([], c :: rest)

/-- `str.rfind('-', 0, stop)`: the largest index of a hyphen strictly
below `stop`, if any. -/
def rfindHyphenAux : List Char → Nat → Option Nat → Option Nat
  | [], _, best => best
  | c :: rest, i, best =>
    rfindHyphenAux rest (i + 1) (if c == '-' then some i else best)

def rfindHyphen (cs : List Char) (stop : Nat) : Option Nat :=
  rfindHyphenAux (cs.take stop) 0 none

/-- The break position chosen by `TextWrapper._handle_long_word` with
`break_long_words=True` and `break_on_hyphens=True`: normally the space
left on the line (`space_left`, at least 1 when the width is below 1),
but right after the last hyphen in the window when the part before that
hyphen contains a non-hyphen. -/
def longWordEnd (width curLen : Nat) (chunk : List Char) : Nat :=
  let spaceLeft := if width < 1 then 1 else width - curLen
  if decide (spaceLeft < chunk.length) then
    match rfindHyphen chunk spaceLeft with
    | some h =>
      if decide (0 < h) && (chunk.take h).any (fun c => !(c == '-')) then
        h + 1
      else spaceLeft
    | none => spaceLeft
  else spaceLeft

/-- `TextWrapper._handle_long_word`: split the over-long chunk at
`longWordEnd`; the first part goes onto the current line and the rest
replaces the chunk. -/
def handleLongWord (width curLen : Nat) (chunk : List Char) : List Char × List Char :=
  (chunk.take (longWordEnd width curLen chunk), chunk.drop (longWordEnd width curLen chunk))

/-- The leading-whitespace drop at the top of the `_wrap_chunks` outer
loop: the first chunk is dropped when it is all whitespace and at least
one line has been emitted already. -/
def dropLeadingBlank (hasLines : Bool) (chunks : List (List Char)) : List (List Char) :=
  match chunks with
  | c :: rest => if hasLines && c.all isPyWS then rest else chunks
  | [] => []

/-- The over-long head chunk handling of `_wrap_chunks`: when the line
is full and the next chunk is longer than the whole width, break it. -/
def fitLongWord (width : Nat) (cur : List (List Char)) :
    List (List Char) → List (List Char) × List (List Char)
  | c :: rest =>
    if decide (width < c.length) then
      let hl := handleLongWord width (sumLen cur) c
      (cur ++ [hl.1], hl.2 :: rest)
    else (cur, c :: rest)
  | [] => (cur, [])

/-- The trailing-whitespace drop of `_wrap_chunks`: the last chunk of
the current line is removed when it is all whitespace. -/
def dropTrailingBlank (cur : List (List Char)) : List (List Char) :=
  match cur.getLast? with
  | some lastC => if lastC.all isPyWS then cur.dropLast else cur
  | none => cur

/-- One iteration of the outer `while chunks:` loop of `_wrap_chunks`
(with empty indents, `drop_whitespace=True` and `max_lines=None`):
possibly drop a leading all-whitespace chunk (only once a line exists),
greedily fill the current line, break an over-long head chunk, drop one
trailing all-whitespace chunk, and emit the line if it is nonempty.
Returns the emitted line (if any) and the remaining chunks. -/
def emitOne (width : Nat) (hasLines : Bool) (chunks0 : List (List Char)) :
    Option (List Char) × List (List Char) :=
  let chunks1 := dropLeadingBlank hasLines chunks0
  let p := takeGreedy width 0 chunks1
  let q := fitLongWord width p.1 p.2
  let cur := dropTrailingBlank q.1
  (if cur.isEmpty then none else some cur.flatten, q.2)

/-- The termination measure of the `_wrap_chunks` outer loop: total
character count plus chunk count. -/
def chunksMeasure (l : List (List Char)) : Nat :=
  sumLen l + l.length

theorem sumLen_cons (c : List Char) (l : List (List Char)) :
    sumLen (c :: l) = c.length + sumLen l := by
  simp [sumLen]

theorem sumLen_append (l₁ l₂ : List (List Char)) :
    sumLen (l₁ ++ l₂) = sumLen l₁ + sumLen l₂ := by
  simp [sumLen]

theorem takeGreedy_append (width curLen : Nat) (chunks : List (List Char)) :
    (takeGreedy width curLen chunks).1 ++ (takeGreedy width curLen chunks).2 = chunks := by
  induction chunks generalizing curLen with
  | nil => rfl
  | cons c rest ih =>
    simp only [takeGreedy]
    split
    · simpa using ih (curLen + c.length)
    · rfl

theorem takeGreedy_fst_nil (width curLen : Nat) (c : List Char)
    (rest : List (List Char))
    (h : (takeGreedy width curLen (c :: rest)).1 = []) :
    width < curLen + c.length := by
  by_contra hc
  push_neg at hc
  simp [takeGreedy, hc] at h

theorem takeGreedy_measure_le (width curLen : Nat) (chunks : List (List Char)) :
    chunksMeasure (takeGreedy width curLen chunks).2 ≤ chunksMeasure chunks := by
  have h := takeGreedy_append width curLen chunks
  calc chunksMeasure (takeGreedy width curLen chunks).2
      ≤ chunksMeasure ((takeGreedy width curLen chunks).1 ++
          (takeGreedy width curLen chunks).2) := by
        simp [chunksMeasure, sumLen_append]; omega
    _ = chunksMeasure chunks := by rw [h]

theorem takeGreedy_measure_lt (width curLen : Nat) (chunks : List (List Char))
    (h1 : (takeGreedy width curLen chunks).1 ≠ []) :
    chunksMeasure (takeGreedy width curLen chunks).2 < chunksMeasure chunks := by
  have h := takeGreedy_append width curLen chunks
  have hlen : 1 ≤ (takeGreedy width curLen chunks).1.length :=
    Nat.one_le_iff_ne_zero.mpr (by simpa using h1)
  calc chunksMeasure (takeGreedy width curLen chunks).2
      < chunksMeasure ((takeGreedy width curLen chunks).1 ++
          (takeGreedy width curLen chunks).2) := by
        simp [chunksMeasure, sumLen_append]; omega
    _ = chunksMeasure chunks := by rw [h]

theorem rfindHyphenAux_bound (l : List Char) :
    ∀ (i : Nat) (best : Option Nat) (j : Nat),
      (∀ k, best = some k → k < i) →
      rfindHyphenAux l i best = some j → j < i + l.length := by
  induction l with
  | nil =>
    intro i best j hbest hres
    have := hbest j hres
    simpa using Nat.lt_of_lt_of_le this (Nat.le_refl i)
  | cons c rest ih =>
    intro i best j hbest hres
    have hstep : ∀ k, (if c == '-' then some i else best) = some k → k < i + 1 := by
      intro k hk
      split at hk
      · cases hk; omega
      · exact Nat.lt_succ_of_lt (hbest k hk)
    have := ih (i + 1) _ j hstep hres
    simpa [Nat.add_comm, Nat.add_left_comm] using this

theorem rfindHyphen_lt_stop (cs : List Char) (stop : Nat) (h : Nat)
    (hres : rfindHyphen cs stop = some h) : h < stop := by
  have hb := rfindHyphenAux_bound (cs.take stop) 0 none h (by intro k hk; cases hk) hres
  have : (cs.take stop).length ≤ stop := by simp [List.length_take]
  omega

theorem longWordEnd_pos (width : Nat) (chunk : List Char) :
    1 ≤ longWordEnd width 0 chunk := by
  have hsp : (if width < 1 then 1 else width - 0) = max width 1 := by
    split <;> omega
  simp only [longWordEnd, hsp]
  split
  · split
    · split
      · omega
      · omega
    · omega
  · omega

theorem longWordEnd_le (width curLen : Nat) (chunk : List Char)
    (hw : 1 ≤ width) :
    longWordEnd width curLen chunk ≤ width - curLen := by
  have hsp : (if width < 1 then 1 else width - curLen) = width - curLen := by
    split <;> omega
  simp only [longWordEnd, hsp]
  split
  · rename_i hlt
    split
    · rename_i h heq
      split
      · have := rfindHyphen_lt_stop chunk (width - curLen) h heq
        omega
      · omega
    · omega
  · omega

theorem handleLongWord_snd_length_le (width curLen : Nat) (chunk : List Char) :
    (handleLongWord width curLen chunk).2.length ≤ chunk.length := by
  simp [handleLongWord, List.length_drop]

theorem handleLongWord_snd_length_lt (width : Nat) (chunk : List Char)
    (h : chunk ≠ []) :
    (handleLongWord width 0 chunk).2.length < chunk.length := by
  have h1 := longWordEnd_pos width chunk
  have h2 : 1 ≤ chunk.length := by
    cases chunk with
    | nil => exact absurd rfl h
    | cons a l => simp
  simp only [handleLongWord, List.length_drop]
  omega

theorem fitLongWord_measure_le (width : Nat) (cur l2 : List (List Char)) :
    chunksMeasure (fitLongWord width cur l2).2 ≤ chunksMeasure l2 := by
  cases l2 with
  | nil => simp [fitLongWord]
  | cons c rest =>
    simp only [fitLongWord]
    split
    · have := handleLongWord_snd_length_le width (sumLen cur) c
      simp only [chunksMeasure, sumLen_cons, List.length_cons]
      omega
    · exact Nat.le_refl _

theorem dropLeadingBlank_measure_le (hasLines : Bool) (chunks : List (List Char)) :
    chunksMeasure (dropLeadingBlank hasLines chunks) ≤ chunksMeasure chunks := by
  cases chunks with
  | nil => simp [dropLeadingBlank]
  | cons c rest =>
    simp only [dropLeadingBlank]
    split
    · simp [chunksMeasure, sumLen_cons]; omega
    · exact Nat.le_refl _

theorem emitOne_measure (width : Nat) (hasLines : Bool) (chunks : List (List Char))
    (h : chunks ≠ []) :
    chunksMeasure (emitOne width hasLines chunks).2 < chunksMeasure chunks := by
  obtain ⟨c, rest, rfl⟩ := List.exists_cons_of_ne_nil h
  show chunksMeasure (fitLongWord width _ _).2 < _
  by_cases hdrop : dropLeadingBlank hasLines (c :: rest) = c :: rest
  · rw [hdrop]
    by_cases hp : (takeGreedy width 0 (c :: rest)).1 = []
    · have hrest : (takeGreedy width 0 (c :: rest)).2 = c :: rest := by
        have := takeGreedy_append width 0 (c :: rest)
        rwa [hp, List.nil_append] at this
      have hwlt : width < c.length := by
        have := takeGreedy_fst_nil width 0 c rest hp
        omega
      rw [hp, hrest]
      simp only [fitLongWord, decide_eq_true_eq, if_pos hwlt]
      have hcne : c ≠ [] := by
        intro hc
        rw [hc] at hwlt
        simp at hwlt
      have hlt := handleLongWord_snd_length_lt width c hcne
      have : sumLen ([] : List (List Char)) = 0 := by simp [sumLen]
      rw [this]
      simp only [chunksMeasure, sumLen_cons, List.length_cons]
      omega
    · exact Nat.lt_of_le_of_lt (fitLongWord_measure_le width _ _)
        (takeGreedy_measure_lt width 0 (c :: rest) hp)
  · have hlt : chunksMeasure (dropLeadingBlank hasLines (c :: rest)) <
        chunksMeasure (c :: rest) := by
      simp only [dropLeadingBlank] at hdrop ⊢
      split
      · simp only [chunksMeasure, sumLen_cons, List.length_cons]
        omega
      · rename_i hcond
        rw [if_neg hcond] at hdrop
        exact absurd rfl hdrop
    exact Nat.lt_of_le_of_lt
      (Nat.le_trans (fitLongWord_measure_le width _ _)
        (takeGreedy_measure_le width 0 _)) hlt

/-- `TextWrapper._wrap_chunks` (already past the `width <= 0` check,
with `max_lines=None`, empty indents): repeatedly build lines until the
chunks are exhausted.  `hasLines` records whether a line has been
emitted yet (Python tests `lines`).  Each iteration strictly decreases
`chunksMeasure` (`emitOne_measure`); `fuel` only makes the recursion
structural and is irrelevant while it exceeds the measure
(`wrapChunksF_congr`). -/
def wrapChunksF (width : Nat) : Nat → Bool → List (List Char) → List (List Char)
  | 0, _, _ => []
  | _ + 1, _, [] => []
  | fuel + 1, hasLines, c :: rest =>
    let r := emitOne width hasLines (c :: rest)
    match r.1 with
    | some line => line :: wrapChunksF width fuel true r.2
    | none => wrapChunksF width fuel hasLines r.2

theorem wrapChunksF_congr (width : Nat) :
    ∀ (f1 f2 : Nat) (hasLines : Bool) (chunks : List (List Char)),
      chunksMeasure chunks < f1 → chunksMeasure chunks < f2 →
      wrapChunksF width f1 hasLines chunks = wrapChunksF width f2 hasLines chunks := by
  intro f1
  induction f1 with
  | zero => intro f2 hasLines chunks h1 h2; omega
  | succ f ih =>
    intro f2 hasLines chunks h1 h2
    cases f2 with
    | zero => omega
    | succ g =>
      cases chunks with
      | nil => rfl
      | cons c rest =>
        have hm := emitOne_measure width hasLines (c :: rest) (by simp)
        simp only [wrapChunksF]
        cases hr : (emitOne width hasLines (c :: rest)).1 with
        | some line =>
          rw [ih g true _ (by omega) (by omega)]
        | none =>
          rw [ih g hasLines _ (by omega) (by omega)]

def wrapChunks (width : Nat) (hasLines : Bool) (chunks : List (List Char)) :
    List (List Char) :=
  wrapChunksF width (chunksMeasure chunks + 1) hasLines chunks

/-- `TextWrapper.wrap` on the default configuration: munge, split into
chunks, wrap.  Assumes the `width <= 0` check has already passed. -/
def textwrapWrapPos (text : String) (width : Nat) : List (List Char) :=
  wrapChunks width false (splitChunks text.data)

/-- `textwrap.fill(text, width)` with the default `TextWrapper`
configuration: raises `ValueError` when `width <= 0` (from
`_wrap_chunks`), otherwise joins the wrapped lines with newlines. -/
def textwrapFill (text : String) (width : Int) : Except PyErr String :=
  if width ≤ 0 then .error .valueError
  else .ok ⟨List.intercalate ['\n'] (textwrapWrapPos text width.toNat)⟩

/-! ## Keyword classification tables (`PyDocSmith/common.py`, lines 6-21) -/

def PARAM_KEYWORDS : List String :=
  ["param", "parameter", "arg", "argument", "attribute", "key", "keyword", "note"]

def RAISES_KEYWORDS : List String := ["raises", "raise", "except", "exception"]

def DEPRECATION_KEYWORDS : List String := ["deprecation", "deprecated"]

def RETURNS_KEYWORDS : List String := ["return", "returns"]

def YIELDS_KEYWORDS : List String := ["yield", "yields"]

def EXAMPLES_KEYWORDS : List String := ["example", "examples"]

def NOTES_KEYWORDS : List String := ["note", "notes"]

/-! ## The docstring data model -/

/-- `DocstringStyle` enumeration. -/
inductive DocstringStyle where
  | rest
  | google
  | numpydoc
  | epydoc
  | auto
deriving DecidableEq, Repr

/-- `RenderingStyle` enumeration. -/
inductive RenderingStyle where
  | compact
  | clean
  | expanded
deriving DecidableEq, Repr

/-- The `DocstringMeta` class hierarchy as a tagged union: the base
class and its six direct subclasses (`DocstringParam`,
`DocstringReturns`, `DocstringRaises`, `DocstringDeprecated`,
`DocstringExample`, `DocstringNote`), each with exactly the fields its
`__init__` stores.  Every variant carries `args` and `description` from
the base class; `base` and `returns` also reset `arg_name` to `None`,
which for those variants is constant and therefore not stored. -/
inductive DocstringMeta where
  | base (args : List String) (description : Option String)
  | param (args : List String) (description : Option String)
      (arg_name : String) (type_name : Option String)
      (is_optional : Option Bool) (default : Option String)
  | returns (args : List String) (description : Option String)
      (type_name : Option String) (is_generator : Bool)
      (return_name : Option String)
  | raises (args : List String) (description : Option String)
      (type_name : Option String)
  | deprecated (args : List String) (description : Option String)
      (version : Option String)
  | example (args : List String) (snippet : Option String)
      (description : Option String)
  | note (args : List String) (snippet : Option String)
      (description : Option String)
deriving DecidableEq, Repr

/-- The `args` attribute, set by `DocstringMeta.__init__`. -/
def DocstringMeta.args : DocstringMeta → List String
  | .base a _ => a
  | .param a _ _ _ _ _ => a
  | .returns a _ _ _ _ => a
  | .raises a _ _ => a
  | .deprecated a _ _ => a
  | .example a _ _ => a
  | .note a _ _ => a

/-- The `description` attribute, set by `DocstringMeta.__init__`. -/
def DocstringMeta.description : DocstringMeta → Option String
  | .base _ d => d
  | .param _ d _ _ _ _ => d
  | .returns _ d _ _ _ => d
  | .raises _ d _ => d
  | .deprecated _ d _ => d
  | .example _ _ d => d
  | .note _ _ d => d

/-- Assignment `meta.args = ...`. -/
def DocstringMeta.setArgs : DocstringMeta → List String → DocstringMeta
  | .base _ d, a => .base a d
  | .param _ d n t o df, a => .param a d n t o df
  | .returns _ d t g r, a => .returns a d t g r
  | .raises _ d t, a => .raises a d t
  | .deprecated _ d v, a => .deprecated a d v
  | .example _ s d, a => .example a s d
  | .note _ s d, a => .note a s d

/-- Assignment `meta.description = ...`. -/
def DocstringMeta.setDescription : DocstringMeta → Option String → DocstringMeta
  | .base a _, d => .base a d
  | .param a _ n t o df, d => .param a d n t o df
  | .returns a _ t g r, d => .returns a d t g r
  | .raises a _ t, d => .raises a d t
  | .deprecated a _ v, d => .deprecated a d v
  | .example a s _, d => .example a s d
  | .note a s _, d => .note a s d

/-- `isinstance(item, DocstringParam)`: `DocstringParam` has no
subclasses, so this is exactly the variant test. -/
def DocstringMeta.isParam : DocstringMeta → Bool
  | .param _ _ _ _ _ _ => true
  | _ => false

/-- `isinstance(item, DocstringReturns)`. -/
def DocstringMeta.isReturns : DocstringMeta → Bool
  | .returns _ _ _ _ _ => true
  | _ => false

/-- `isinstance(item, DocstringRaises)`. -/
def DocstringMeta.isRaises : DocstringMeta → Bool
  | .raises _ _ _ => true
  | _ => false

/-- `isinstance(item, DocstringDeprecated)`. -/
def DocstringMeta.isDeprecated : DocstringMeta → Bool
  | .deprecated _ _ _ => true
  | _ => false

/-- `isinstance(item, DocstringExample)`. -/
def DocstringMeta.isExample : DocstringMeta → Bool
  | .example _ _ _ => true
  | _ => false

/-- `isinstance(item, DocstringNote)`. -/
def DocstringMeta.isNote : DocstringMeta → Bool
  | .note _ _ _ => true
  | _ => false

/-- The `Docstring` aggregate, with the attributes set by
`Docstring.__init__`. -/
structure Docstring where
  short_description : Option String
  long_description : Option String
  blank_after_short_description : Bool
  blank_after_long_description : Bool
  meta : List DocstringMeta
  style : Option DocstringStyle
deriving DecidableEq, Repr

/-- `Docstring.__init__(style=None)`: everything empty or false. -/
def Docstring.init (style : Option DocstringStyle) : Docstring :=
  { short_description := none
    long_description := none
    blank_after_short_description := false
    blank_after_long_description := false
    meta := []
    style := style }

/-- Property `Docstring.params`:
`[item for item in self.meta if isinstance(item, DocstringParam)]`. -/
def Docstring.params (d : Docstring) : List DocstringMeta :=
  d.meta.filter DocstringMeta.isParam

/-- Property `Docstring.raises`. -/
def Docstring.raises (d : Docstring) : List DocstringMeta :=
  d.meta.filter DocstringMeta.isRaises

/-- The first-match loop of the `Docstring.returns` and
`Docstring.deprecation` properties:
`for item in self.meta: if isinstance(item, C): return item` /
`return None`. -/
def firstMeta (p : DocstringMeta → Bool) : List DocstringMeta → Option DocstringMeta
  | [] => none
  | m :: rest => if p m then some m else firstMeta p rest

/-- Property `Docstring.returns`: the first `DocstringReturns` item. -/
def Docstring.returns (d : Docstring) : Option DocstringMeta :=
  firstMeta DocstringMeta.isReturns d.meta

/-- Property `Docstring.many_returns`. -/
def Docstring.many_returns (d : Docstring) : List DocstringMeta :=
  d.meta.filter DocstringMeta.isReturns

/-- Property `Docstring.deprecation`: the first `DocstringDeprecated`
item. -/
def Docstring.deprecation (d : Docstring) : Option DocstringMeta :=
  firstMeta DocstringMeta.isDeprecated d.meta

/-- Property `Docstring.examples`. -/
def Docstring.examples (d : Docstring) : List DocstringMeta :=
  d.meta.filter DocstringMeta.isExample

/-- Property `Docstring.notes`. -/
def Docstring.notes (d : Docstring) : List DocstringMeta :=
  d.meta.filter DocstringMeta.isNote

/-! ## The normalization pass `format_docstring_to_pep257` -/

/-- The expression `itm.strip()` in the meta-description loop of
`format_docstring_to_pep257`.  The loop header
`for itm, idx in enumerate(split_description)` binds `itm` to the
numeric index and `idx` to the line, in that order, so `itm` is an
`int` and calling the string method `.strip()` on it raises
`AttributeError` in Python. -/
def intStrip (_ : Nat) : Except PyErr String :=
  .error .attributeError

/-- The assignment target `split_description[idx]` with `idx` bound to
a string: indexing a Python list with a `str` raises `TypeError`.
Unreachable, because `itm.strip()` raises first. -/
def listSetStrIndex (_ : List String) (_ : String) (_ : String) :
    Except PyErr (List String) :=
  .error .typeError

/-- `str.split("\n")` on a character list: split at every newline,
keeping empty pieces.  The result is never empty. -/
def splitNLList : List Char → List (List Char)
  | [] => [[]]
  | c :: rest =>
    if c == '\n' then [] :: splitNLList rest
    else
      match splitNLList rest with
      | [] => [[c]]
      | l :: ls => (c :: l) :: ls

/-- `desc.split("\n")`. -/
def pySplitNL (s : String) : List String :=
  (splitNLList s.data).map fun l => ⟨l⟩

/-- The meta-description branch of `format_docstring_to_pep257`
(lines 245-249): split the description on newlines, then run
`for itm, idx in enumerate(split_description):
   split_description[idx] = textwrap.fill(itm.strip(), width)`
and rejoin.  The swapped `enumerate` binding makes the first loop
iteration raise `AttributeError` whenever the split is nonempty, which
it always is. -/
def metaDescriptionPass (desc : String) (width : Int) : Except PyErr String := do
  let split := pySplitNL desc
  let split2 ← split.enum.foldlM
    (fun (acc : List String) (p : Nat × String) => do
      let stripped ← intStrip p.1
      let filled ← textwrapFill stripped width
      listSetStrIndex acc p.2 filled)
    split
  pure (String.intercalate "\n" split2)

/-- The args clean-up of `format_docstring_to_pep257` (line 252):
`[arg.strip() for arg in meta.args if arg.strip()]`. -/
def stripArgs (args : List String) : List String :=
  (args.filter (fun arg => !(pyStrip arg == ""))).map pyStrip

/-- The loop body of `format_docstring_to_pep257` for one meta fragment
(lines 243-252): when the description is truthy, run the (faulty)
rewrap and store the result; when no error was raised and `args` is
truthy, strip the args.  Returns the fragment's final state and the
raised error, if any. -/
def processMeta (width : Int) (m : DocstringMeta) : DocstringMeta × Option PyErr :=
  let step1 : DocstringMeta × Option PyErr :=
    if truthy m.description then
      match metaDescriptionPass (m.description.getD "") width with
      | .ok newDesc => (m.setDescription (some newDesc), none)
      | .error e => (m, some e)
    else (m, none)
  match step1 with
  | (m1, some e) => (m1, some e)
  | (m1, none) =>
    if !m1.args.isEmpty then (m1.setArgs (stripArgs m1.args), none)
    else (m1, none)

/-- The `for meta in docstring.meta:` loop: fragments are processed in
order; an exception stops the loop, leaving later fragments untouched. -/
def processMetaList (width : Int) : List DocstringMeta → List DocstringMeta × Option PyErr
  | [] => ([], none)
  | m :: rest =>
    match processMeta width m with
    | (m1, some e) => (m1 :: rest, some e)
    | (m1, none) =>
      let r := processMetaList width rest
      (m1 :: r.1, r.2)

/-- One of the two description fields of `format_docstring_to_pep257`
(lines 237-240): when truthy, replace it by
`textwrap.fill(field.strip(), width)`; on an exception the field keeps
its previous value. -/
def fillField (field : Option String) (width : Int) : Option String × Option PyErr :=
  if truthy field then
    match textwrapFill (pyStrip (field.getD "")) width with
    | .ok t => (some t, none)
    | .error e => (field, some e)
  else (field, none)

/-- `format_docstring_to_pep257(docstring, width)` (lines 236-254),
modelled with the in-place mutations made explicit: the returned
docstring is the state of the object when the function returns or when
an exception propagates, and the second component is the raised
exception, if any. -/
def format_docstring_to_pep257 (d : Docstring) (width : Int) :
    Docstring × Option PyErr :=
  match fillField d.short_description width with
  | (s, some e) => ({ d with short_description := s }, some e)
  | (s, none) =>
    let d1 := { d with short_description := s }
    match fillField d1.long_description width with
    | (l, some e) => ({ d1 with long_description := l }, some e)
    | (l, none) =>
      let d2 := { d1 with long_description := l }
      let r := processMetaList width d2.meta
      ({ d2 with meta := r.1 }, r.2)

/-! ## Helper lemmas about the derived views -/

theorem firstMeta_eq_head_filter (p : DocstringMeta → Bool)
    (l : List DocstringMeta) :
    firstMeta p l = (l.filter p).head? := by
  induction l with
  | nil => rfl
  | cons m rest ih =>
    simp only [firstMeta, List.filter_cons]
    by_cases h : p m
    · simp [h]
    · simp [h, ih]

/-! ## Claim theorems -/

/-- C3: for every Docstring, each list-valued derived view (`params`,
`raises`, `many_returns`, `examples`, `notes`) is the ordered
sub-sequence of `meta` consisting exactly of the fragments of the
matching variant (it is a sublist of `meta`, every element is of the
variant, and it is as long as the number of matching fragments), and
`returns` / `deprecation` are the first `Returns` / `Deprecated`
fragment of `meta`, or `none` when there is no such fragment. -/
theorem c3_derived_views (d : Docstring) :
    (d.params.Sublist d.meta ∧ (∀ m ∈ d.params, m.isParam = true) ∧
      d.params.length = d.meta.countP DocstringMeta.isParam) ∧
    (d.raises.Sublist d.meta ∧ (∀ m ∈ d.raises, m.isRaises = true) ∧
      d.raises.length = d.meta.countP DocstringMeta.isRaises) ∧
    (d.many_returns.Sublist d.meta ∧
      (∀ m ∈ d.many_returns, m.isReturns = true) ∧
      d.many_returns.length = d.meta.countP DocstringMeta.isReturns) ∧
    (d.examples.Sublist d.meta ∧ (∀ m ∈ d.examples, m.isExample = true) ∧
      d.examples.length = d.meta.countP DocstringMeta.isExample) ∧
    (d.notes.Sublist d.meta ∧ (∀ m ∈ d.notes, m.isNote = true) ∧
      d.notes.length = d.meta.countP DocstringMeta.isNote) ∧
    d.returns = (d.meta.filter DocstringMeta.isReturns).head? ∧
    d.deprecation = (d.meta.filter DocstringMeta.isDeprecated).head? := by
  refine ⟨⟨List.filter_sublist _, ?_, ?_⟩, ⟨List.filter_sublist _, ?_, ?_⟩,
    ⟨List.filter_sublist _, ?_, ?_⟩, ⟨List.filter_sublist _, ?_, ?_⟩,
    ⟨List.filter_sublist _, ?_, ?_⟩,
    firstMeta_eq_head_filter _ _, firstMeta_eq_head_filter _ _⟩ <;>
  first
    | exact fun m hm => List.of_mem_filter hm
    | exact (List.countP_eq_length_filter _ _).symm

/-- C8: the keyword classification tables are the literal sets from the
source; the Param family is exactly
{param, parameter, arg, argument, attribute, key, keyword, note}, the
Note family is exactly {note, notes}, and the word "note" belongs to
both. -/
theorem c8_keyword_tables :
    (∀ s : String, s ∈ PARAM_KEYWORDS ↔
      s = "param" ∨ s = "parameter" ∨ s = "arg" ∨ s = "argument" ∨
      s = "attribute" ∨ s = "key" ∨ s = "keyword" ∨ s = "note") ∧
    (∀ s : String, s ∈ NOTES_KEYWORDS ↔ s = "note" ∨ s = "notes") ∧
    "note" ∈ PARAM_KEYWORDS ∧ "note" ∈ NOTES_KEYWORDS := by
  refine ⟨fun s => ?_, fun s => ?_, ?_, ?_⟩ <;>
    simp [PARAM_KEYWORDS, NOTES_KEYWORDS]

/-- C10: a freshly constructed Docstring has no short or long
description, both blank flags false, empty `meta`, the given style, and
all derived views empty or absent. -/
theorem c10_init_empty (style : Option DocstringStyle) :
    (Docstring.init style).short_description = none ∧
    (Docstring.init style).long_description = none ∧
    (Docstring.init style).blank_after_short_description = false ∧
    (Docstring.init style).blank_after_long_description = false ∧
    (Docstring.init style).meta = [] ∧
    (Docstring.init style).style = style ∧
    (Docstring.init style).params = [] ∧
    (Docstring.init style).raises = [] ∧
    (Docstring.init style).many_returns = [] ∧
    (Docstring.init style).examples = [] ∧
    (Docstring.init style).notes = [] ∧
    (Docstring.init style).returns = none ∧
    (Docstring.init style).deprecation = none :=
  ⟨rfl, rfl, rfl, rfl, rfl, rfl, rfl, rfl, rfl, rfl, rfl, rfl, rfl⟩

/-- The concrete input of claim C1: a Param fragment whose description
is the two-line text of the spec scenario, at width 20. -/
def c1Input : Docstring :=
  { short_description := none
    long_description := none
    blank_after_short_description := false
    blank_after_long_description := false
    meta := [DocstringMeta.param ["param", "x"]
      (some "line one that is quite long and will wrap\nline two")
      "x" none none none]
    style := none }

/-- C1 (code bug): on the spec's own scenario input the code does not
rewrap the description at all; the swapped `enumerate` binding makes the
first loop iteration call `.strip()` on an `int`, so the call raises
`AttributeError` and the docstring is returned unchanged. -/
theorem c1_meta_description_raises :
    format_docstring_to_pep257 c1Input 20 = (c1Input, some PyErr.attributeError) := by
  rfl

/-- The concrete input of claim C6's failing case: a fragment with the
spec's args list and a non-empty description. -/
def c6Input : Docstring :=
  { short_description := none
    long_description := none
    blank_after_short_description := false
    blank_after_long_description := false
    meta := [DocstringMeta.param ["  a ", "", "b\t"] (some "x")
      "a" none none none]
    style := none }

/-- C6 (code bug): when a fragment carries both a non-empty description
and a non-empty args list, the description loop raises `AttributeError`
before the args clean-up runs, so the args keep their raw value
`["  a ", "", "b\t"]` instead of the claimed `["a", "b"]` (which is what
the args clean-up `stripArgs` would produce). -/
theorem c6_args_not_stripped :
    format_docstring_to_pep257 c6Input 72 = (c6Input, some PyErr.attributeError) ∧
    stripArgs ["  a ", "", "b\t"] = ["a", "b"] := by
  exact ⟨rfl, rfl⟩

/-- The concrete input of claim C2's counterexample. -/
def c2Input : Docstring :=
  { short_description := some "This is a test."
    long_description := none
    blank_after_short_description := false
    blank_after_long_description := false
    meta := []
    style := none }

/-- C2 counterexample: at width 0 with a set short description the pass
raises `ValueError` (from `textwrap.fill`), so it is not error-free and
produces no one-word-per-line wrapping. -/
theorem c2_counterexample :
    (format_docstring_to_pep257 c2Input 0).2 = some PyErr.valueError ∧
    ¬((format_docstring_to_pep257 c2Input 0).2 = none) := by
  refine ⟨rfl, by decide⟩

/-- The concrete input of claim C5's counterexample: a single word
longer than the width. -/
def c5Input : Docstring :=
  { short_description := some "abcdefghijkl"
    long_description := none
    blank_after_short_description := false
    blank_after_long_description := false
    meta := []
    style := none }

/-- C5 counterexample: a single word of 12 characters at width 10 is
not left unsplit on its own line; `textwrap.fill` breaks it after 10
characters (`break_long_words=True`). -/
theorem c5_counterexample :
    (format_docstring_to_pep257 c5Input 10).1.short_description =
      some "abcdefghij\nkl" ∧
    ¬((format_docstring_to_pep257 c5Input 10).1.short_description =
      some "abcdefghijkl") := by
  refine ⟨rfl, by decide⟩

/-- The concrete input of claim C9's counterexample: a fragment whose
description is the empty string but whose args list is non-empty. -/
def c9Input : Docstring :=
  { short_description := none
    long_description := none
    blank_after_short_description := false
    blank_after_long_description := false
    meta := [DocstringMeta.param ["  a "] (some "") "a" none none none]
    style := none }

/-- C9 counterexample: a fragment with an empty-string description is
not "skipped entirely": its args are still stripped, so the fragment's
fields do change. -/
theorem c9_counterexample :
    (format_docstring_to_pep257 c9Input 72).2 = none ∧
    (format_docstring_to_pep257 c9Input 72).1.meta =
      [DocstringMeta.param ["a"] (some "") "a" none none none] ∧
    ¬((format_docstring_to_pep257 c9Input 72).1.meta = c9Input.meta) := by
  refine ⟨rfl, rfl, by decide⟩

/-! ## Helper lemmas about the normalization pass -/

theorem splitNLList_ne_nil (cs : List Char) : splitNLList cs ≠ [] := by
  cases cs with
  | nil => simp [splitNLList]
  | cons c rest =>
    simp only [splitNLList]
    split
    · simp
    · split <;> simp

/-- The faulty per-line loop raises `AttributeError` on its first
iteration for every description and width: the split list is never
empty, and its first element already triggers `intStrip`. -/
theorem metaDescriptionPass_error (desc : String) (w : Int) :
    metaDescriptionPass desc w = Except.error PyErr.attributeError := by
  unfold metaDescriptionPass
  cases hs : pySplitNL desc with
  | nil =>
    have hne := splitNLList_ne_nil desc.data
    rw [pySplitNL] at hs
    exact absurd (List.map_eq_nil_iff.mp hs) hne
  | cons x xs =>
    rfl

theorem processMeta_desc_error (w : Int) (m : DocstringMeta)
    (h : truthy m.description = true) :
    processMeta w m = (m, some PyErr.attributeError) := by
  simp [processMeta, h, metaDescriptionPass_error]

theorem processMeta_no_desc (w : Int) (m : DocstringMeta)
    (h : truthy m.description = false) :
    processMeta w m =
      (if m.args.isEmpty then m else m.setArgs (stripArgs m.args), none) := by
  simp only [processMeta, h, Bool.false_eq_true, if_false]
  by_cases ha : m.args.isEmpty
  · simp [ha]
  · simp [ha]

theorem DocstringMeta.args_setArgs (m : DocstringMeta) (a : List String) :
    (m.setArgs a).args = a := by
  cases m <;> rfl

theorem DocstringMeta.description_setArgs (m : DocstringMeta) (a : List String) :
    (m.setArgs a).description = m.description := by
  cases m <;> rfl

theorem DocstringMeta.setArgs_setArgs (m : DocstringMeta) (a b : List String) :
    (m.setArgs a).setArgs b = m.setArgs b := by
  cases m <;> rfl

/-! ## C4: the frame property of the normalization pass -/

/-- Everything a `DocstringMeta` fragment carries besides `args` and
`description`: the variant tag and the variant-specific fields. -/
inductive MetaSkeleton where
  | base
  | param (arg_name : String) (type_name : Option String)
      (is_optional : Option Bool) (default : Option String)
  | returns (type_name : Option String) (is_generator : Bool)
      (return_name : Option String)
  | raises (type_name : Option String)
  | deprecated (version : Option String)
  | example (snippet : Option String)
  | note (snippet : Option String)
deriving DecidableEq, Repr

def DocstringMeta.skeleton : DocstringMeta → MetaSkeleton
  | .base _ _ => .base
  | .param _ _ n t o df => .param n t o df
  | .returns _ _ t g r => .returns t g r
  | .raises _ _ t => .raises t
  | .deprecated _ _ v => .deprecated v
  | .example _ s _ => .example s
  | .note _ s _ => .note s

theorem DocstringMeta.skeleton_setArgs (m : DocstringMeta) (a : List String) :
    (m.setArgs a).skeleton = m.skeleton := by
  cases m <;> rfl

theorem DocstringMeta.skeleton_setDescription (m : DocstringMeta)
    (d : Option String) :
    (m.setDescription d).skeleton = m.skeleton := by
  cases m <;> rfl

theorem processMeta_skeleton (w : Int) (m : DocstringMeta) :
    (processMeta w m).1.skeleton = m.skeleton := by
  by_cases h : truthy m.description = true
  · rw [processMeta_desc_error w m h]
  · rw [processMeta_no_desc w m (by simpa using h)]
    by_cases ha : m.args.isEmpty
    · simp [ha]
    · simp [ha, DocstringMeta.skeleton_setArgs]

theorem processMetaList_skeleton (w : Int) (ms : List DocstringMeta) :
    (processMetaList w ms).1.map DocstringMeta.skeleton =
      ms.map DocstringMeta.skeleton := by
  induction ms with
  | nil => rfl
  | cons m rest ih =>
    simp only [processMetaList]
    cases hp : processMeta w m with
    | mk m1 e =>
      have hm1 : m1.skeleton = m.skeleton := by
        have := processMeta_skeleton w m
        rw [hp] at this
        exact this
      cases e with
      | some err => simp [hm1]
      | none => simp [hm1, ih]

/-- C4: for every Docstring and width, the normalization pass preserves
the number, order and variant tags of the fragments of `meta` and all of
their variant-specific fields (`arg_name`, `type_name`, `is_optional`,
`default`, `version`, `is_generator`, `return_name`, `snippet`), as
captured by `DocstringMeta.skeleton`; it also leaves the style and the
two blank-line flags unchanged, so only the textual `description` /
`args` content of fragments and the two top-level description fields
can change. -/
theorem c4_frame (d : Docstring) (w : Int) :
    (format_docstring_to_pep257 d w).1.meta.map DocstringMeta.skeleton =
      d.meta.map DocstringMeta.skeleton ∧
    (format_docstring_to_pep257 d w).1.meta.length = d.meta.length ∧
    (format_docstring_to_pep257 d w).1.style = d.style ∧
    (format_docstring_to_pep257 d w).1.blank_after_short_description =
      d.blank_after_short_description ∧
    (format_docstring_to_pep257 d w).1.blank_after_long_description =
      d.blank_after_long_description := by
  have hmain :
      (format_docstring_to_pep257 d w).1.meta.map DocstringMeta.skeleton =
        d.meta.map DocstringMeta.skeleton ∧
      (format_docstring_to_pep257 d w).1.style = d.style ∧
      (format_docstring_to_pep257 d w).1.blank_after_short_description =
        d.blank_after_short_description ∧
      (format_docstring_to_pep257 d w).1.blank_after_long_description =
        d.blank_after_long_description := by
    unfold format_docstring_to_pep257
    rcases hs : fillField d.short_description w with ⟨s, es⟩
    cases es with
    | some e => exact ⟨rfl, rfl, rfl, rfl⟩
    | none =>
      dsimp only
      rcases hl : fillField d.long_description w with ⟨l, el⟩
      cases el with
      | some e => exact ⟨rfl, rfl, rfl, rfl⟩
      | none =>
        dsimp only
        exact ⟨processMetaList_skeleton w d.meta, rfl, rfl, rfl⟩
  refine ⟨hmain.1, ?_, hmain.2⟩
  have := congrArg List.length hmain.1
  simpa using this

theorem fillField_falsy (field : Option String) (w : Int)
    (h : truthy field = false) : fillField field w = (field, none) := by
  simp [fillField, h]

theorem fillField_nonpos (field : Option String) (w : Int)
    (hw : w ≤ 0) (h : truthy field = true) :
    fillField field w = (field, some PyErr.valueError) := by
  simp [fillField, h, textwrapFill, hw]

/-- The only exception the fragment loop can raise is the
`AttributeError` of the faulty description rewrap. -/
theorem processMetaList_snd_attr (w : Int) (ms : List DocstringMeta) :
    (processMetaList w ms).2 = none ∨
      (processMetaList w ms).2 = some PyErr.attributeError := by
  induction ms with
  | nil => exact Or.inl rfl
  | cons m rest ih =>
    by_cases h : truthy m.description = true
    · simp only [processMetaList, processMeta_desc_error w m h]
      exact Or.inr trivial
    · simp only [processMetaList, processMeta_no_desc w m (by simpa using h)]
      exact ih

theorem processMetaList_snd_none_iff (w : Int) (ms : List DocstringMeta) :
    (processMetaList w ms).2 = none ↔
      ∀ m ∈ ms, truthy m.description = false := by
  induction ms with
  | nil => simp [processMetaList]
  | cons m rest ih =>
    by_cases h : truthy m.description = true
    · simp only [processMetaList, processMeta_desc_error w m h]
      refine iff_of_false (by simp) ?_
      intro hall
      exact absurd (hall m (by simp)) (by simp [h])
    · have h' : truthy m.description = false := by simpa using h
      simp only [processMetaList, processMeta_no_desc w m h']
      simpa [h'] using ih

theorem format_short_of_falsy (d : Docstring) (w : Int)
    (h : truthy d.short_description = false) :
    (format_docstring_to_pep257 d w).1.short_description = d.short_description := by
  unfold format_docstring_to_pep257
  rw [fillField_falsy _ _ h]
  dsimp only
  rcases hl : fillField d.long_description w with ⟨l, el⟩
  cases el <;> rfl

theorem format_long_of_falsy (d : Docstring) (w : Int)
    (h : truthy d.long_description = false) :
    (format_docstring_to_pep257 d w).1.long_description = d.long_description := by
  unfold format_docstring_to_pep257
  rcases hs : fillField d.short_description w with ⟨s, es⟩
  cases es with
  | some e => rfl
  | none =>
    dsimp only
    rw [fillField_falsy _ _ h]

/-- C2 amended: for a non-positive width the pass raises `ValueError`
as soon as a non-empty short or long description is present; when both
of those are absent or empty but some fragment has a non-empty
description, it raises `AttributeError` (from the description loop);
and it completes without error exactly when the short description, the
long description and every fragment description are all absent or
empty. -/
theorem c2_amended (d : Docstring) (w : Int) (hw : w ≤ 0) :
    ((truthy d.short_description || truthy d.long_description) = true →
      (format_docstring_to_pep257 d w).2 = some PyErr.valueError) ∧
    (truthy d.short_description = false →
      truthy d.long_description = false →
      (∃ m ∈ d.meta, truthy m.description = true) →
      (format_docstring_to_pep257 d w).2 = some PyErr.attributeError) ∧
    ((format_docstring_to_pep257 d w).2 = none ↔
      truthy d.short_description = false ∧
      truthy d.long_description = false ∧
      ∀ m ∈ d.meta, truthy m.description = false) := by
  by_cases hs : truthy d.short_description = true
  · have hfmt : format_docstring_to_pep257 d w =
        ({ d with short_description := d.short_description },
          some PyErr.valueError) := by
      unfold format_docstring_to_pep257
      rw [fillField_nonpos _ _ hw hs]
    rw [hfmt]
    refine ⟨fun _ => rfl, fun h1 _ _ => ?_, by simp [hs]⟩
    rw [h1] at hs
    cases hs
  · have hs' : truthy d.short_description = false := by simpa using hs
    by_cases hl : truthy d.long_description = true
    · have hfmt : (format_docstring_to_pep257 d w).2 = some PyErr.valueError := by
        unfold format_docstring_to_pep257
        rw [fillField_falsy _ _ hs']
        dsimp only
        rw [fillField_nonpos _ _ hw hl]
      rw [hfmt]
      refine ⟨fun _ => rfl, fun _ h2 _ => ?_, by simp [hl]⟩
      rw [h2] at hl
      cases hl
    · have hl' : truthy d.long_description = false := by simpa using hl
      have hfmt : (format_docstring_to_pep257 d w).2 =
          (processMetaList w d.meta).2 := by
        unfold format_docstring_to_pep257
        rw [fillField_falsy _ _ hs']
        dsimp only
        rw [fillField_falsy _ _ hl']
      rw [hfmt]
      refine ⟨?_, ?_, ?_⟩
      · intro hcontra
        rw [hs', hl'] at hcontra
        simp at hcontra
      · rintro _ _ ⟨m, hmem, hdm⟩
        rcases processMetaList_snd_attr w d.meta with hnone | hattr
        · have hall := (processMetaList_snd_none_iff w d.meta).mp hnone
          rw [hall m hmem] at hdm
          cases hdm
        · exact hattr
      · simp [processMetaList_snd_none_iff, hs', hl']

/-- The input of claim C2's amended-theorem witness, `ValueError` case. -/
def c2WitnessInput : Docstring :=
  { short_description := some "hello world"
    long_description := none
    blank_after_short_description := false
    blank_after_long_description := false
    meta := [DocstringMeta.base ["x"] none]
    style := none }

/-- The input of claim C2's amended-theorem witness, `AttributeError`
case: no short or long description, but a fragment with a non-empty
description. -/
def c2WitnessInput2 : Docstring :=
  { short_description := none
    long_description := some ""
    blank_after_short_description := false
    blank_after_long_description := false
    meta := [DocstringMeta.base [] (some "some text")]
    style := none }

theorem c2_amended_witness :
    ((format_docstring_to_pep257 c2WitnessInput (-3)).2 =
        some PyErr.valueError ∧
      ((format_docstring_to_pep257 c2WitnessInput (-3)).2 = none ↔
        truthy c2WitnessInput.short_description = false ∧
        truthy c2WitnessInput.long_description = false ∧
        ∀ m ∈ c2WitnessInput.meta, truthy m.description = false)) ∧
    (format_docstring_to_pep257 c2WitnessInput2 (-3)).2 =
      some PyErr.attributeError :=
  ⟨⟨(c2_amended c2WitnessInput (-3) (by decide)).1 (by decide),
      (c2_amended c2WitnessInput (-3) (by decide)).2.2⟩,
    (c2_amended c2WitnessInput2 (-3) (by decide)).2.1 (by decide) (by decide)
      ⟨DocstringMeta.base [] (some "some text"), by decide, by decide⟩⟩

theorem processMetaList_forall2 (w : Int) (ms : List DocstringMeta) :
    List.Forall₂ (fun m m' : DocstringMeta =>
        (m.description = some "" → m'.description = some "") ∧
        (m.args = [] → m'.args = []))
      ms (processMetaList w ms).1 := by
  induction ms with
  | nil => exact List.Forall₂.nil
  | cons m rest ih =>
    simp only [processMetaList]
    rcases hp : processMeta w m with ⟨m1, e⟩
    have hR : (m.description = some "" → m1.description = some "") ∧
        (m.args = [] → m1.args = []) := by
      by_cases h : truthy m.description = true
      · rw [processMeta_desc_error w m h] at hp
        cases hp
        exact ⟨fun h => h, fun h => h⟩
      · rw [processMeta_no_desc w m (by simpa using h)] at hp
        have hm1 : m1 = if m.args.isEmpty then m
            else m.setArgs (stripArgs m.args) := by
          cases hp
          rfl
        by_cases ha : m.args.isEmpty
        · rw [hm1, if_pos ha]
          exact ⟨fun h => h, fun h => h⟩
        · rw [hm1, if_neg ha]
          refine ⟨fun h => ?_, fun h => ?_⟩
          · rw [DocstringMeta.description_setArgs]
            exact h
          · exact absurd (by simp [h]) ha
    cases e with
    | some err => exact List.Forall₂.cons hR (List.forall₂_same.mpr
        (fun m' _ => ⟨fun h => h, fun h => h⟩))
    | none => exact List.Forall₂.cons hR ih

/-- C9 amended: empty-string text fields are treated as unset, each by
its own check: an empty short or long description is left unchanged, a
fragment's empty description is left unchanged (and triggers no
description processing, hence no error), and a fragment's empty args
list is left unchanged — but the two per-fragment checks are
independent, so a fragment with an empty description and a non-empty
args list still has its args stripped. -/
theorem c9_amended (d : Docstring) (w : Int) :
    (d.short_description = some "" →
      (format_docstring_to_pep257 d w).1.short_description = some "") ∧
    (d.long_description = some "" →
      (format_docstring_to_pep257 d w).1.long_description = some "") ∧
    List.Forall₂ (fun m m' : DocstringMeta =>
        (m.description = some "" → m'.description = some "") ∧
        (m.args = [] → m'.args = []))
      d.meta (format_docstring_to_pep257 d w).1.meta := by
  refine ⟨?_, ?_, ?_⟩
  · intro h
    have ht : truthy d.short_description = false := by rw [h]; rfl
    rw [format_short_of_falsy d w ht, h]
  · intro h
    have ht : truthy d.long_description = false := by rw [h]; rfl
    rw [format_long_of_falsy d w ht, h]
  · have hself : ∀ ms : List DocstringMeta,
        List.Forall₂ (fun m m' : DocstringMeta =>
          (m.description = some "" → m'.description = some "") ∧
          (m.args = [] → m'.args = [])) ms ms :=
      fun ms => List.forall₂_same.mpr (fun m' _ => ⟨fun h => h, fun h => h⟩)
    unfold format_docstring_to_pep257
    rcases hs : fillField d.short_description w with ⟨s, es⟩
    cases es with
    | some e => exact hself d.meta
    | none =>
      dsimp only
      rcases hl : fillField d.long_description w with ⟨l, el⟩
      cases el with
      | some e => exact hself d.meta
      | none =>
        dsimp only
        exact processMetaList_forall2 w d.meta

/-- The input of claim C9's amended-theorem witness. -/
def c9WitnessInput : Docstring :=
  { short_description := some ""
    long_description := some ""
    blank_after_short_description := false
    blank_after_long_description := false
    meta := [DocstringMeta.base [] (some ""),
             DocstringMeta.base ["  x "] none]
    style := none }

theorem c9_amended_witness :
    (format_docstring_to_pep257 c9WitnessInput 5).1.short_description = some "" ∧
    (format_docstring_to_pep257 c9WitnessInput 5).1.long_description = some "" ∧
    List.Forall₂ (fun m m' : DocstringMeta =>
        (m.description = some "" → m'.description = some "") ∧
        (m.args = [] → m'.args = []))
      c9WitnessInput.meta (format_docstring_to_pep257 c9WitnessInput 5).1.meta :=
  ⟨(c9_amended c9WitnessInput 5).1 rfl,
    (c9_amended c9WitnessInput 5).2.1 rfl,
    (c9_amended c9WitnessInput 5).2.2⟩

/-! ## Line-length bound for the wrap loop -/

theorem length_flatten_eq_sumLen (l : List (List Char)) :
    l.flatten.length = sumLen l := by
  induction l with
  | nil => rfl
  | cons c rest ih => simp [sumLen_cons, ih]

theorem takeGreedy_sum_le (width : Nat) (curLen : Nat)
    (chunks : List (List Char)) (h : curLen ≤ width) :
    curLen + sumLen (takeGreedy width curLen chunks).1 ≤ width := by
  induction chunks generalizing curLen with
  | nil => simpa [takeGreedy, sumLen] using h
  | cons c rest ih =>
    simp only [takeGreedy]
    split
    · rename_i hfit
      have := ih (curLen + c.length) hfit
      simp only [sumLen_cons]
      omega
    · simpa [sumLen] using h

theorem fitLongWord_fst_sum_le (width : Nat) (hw : 1 ≤ width)
    (cur l2 : List (List Char)) (hcur : sumLen cur ≤ width) :
    sumLen (fitLongWord width cur l2).1 ≤ width := by
  cases l2 with
  | nil => simpa [fitLongWord] using hcur
  | cons c rest =>
    simp only [fitLongWord]
    split
    · have hle := longWordEnd_le width (sumLen cur) c hw
      have htake : (c.take (longWordEnd width (sumLen cur) c)).length ≤
          longWordEnd width (sumLen cur) c := by
        simp [List.length_take]
      have hsingle : ∀ x : List Char, sumLen [x] = x.length := by
        intro x
        simp [sumLen]
      simp only [handleLongWord, sumLen_append, hsingle]
      omega
    · exact hcur

theorem sumLen_dropLast_le (l : List (List Char)) :
    sumLen l.dropLast ≤ sumLen l := by
  induction l with
  | nil => simp [sumLen]
  | cons c rest ih =>
    cases rest with
    | nil => simp [sumLen]
    | cons d rest2 =>
      have hdl : (c :: d :: rest2).dropLast = c :: (d :: rest2).dropLast := rfl
      rw [hdl, sumLen_cons, sumLen_cons]
      exact Nat.add_le_add_left ih c.length

theorem dropTrailingBlank_sum_le (cur : List (List Char)) :
    sumLen (dropTrailingBlank cur) ≤ sumLen cur := by
  unfold dropTrailingBlank
  split
  · split
    · exact sumLen_dropLast_le cur
    · exact Nat.le_refl _
  · exact Nat.le_refl _

theorem emitOne_line_le (width : Nat) (hw : 1 ≤ width) (hasLines : Bool)
    (chunks : List (List Char)) (line : List Char)
    (h : (emitOne width hasLines chunks).1 = some line) :
    line.length ≤ width := by
  simp only [emitOne] at h
  split at h
  · exact absurd h (by simp)
  · have hline : line =
        (dropTrailingBlank (fitLongWord width
          (takeGreedy width 0 (dropLeadingBlank hasLines chunks)).1
          (takeGreedy width 0 (dropLeadingBlank hasLines chunks)).2).1).flatten := by
      exact (Option.some.inj h).symm
    have h1 : sumLen (takeGreedy width 0 (dropLeadingBlank hasLines chunks)).1 ≤
        width := by
      have := takeGreedy_sum_le width 0 (dropLeadingBlank hasLines chunks)
        (Nat.zero_le _)
      omega
    have h2 := fitLongWord_fst_sum_le width hw _
      (takeGreedy width 0 (dropLeadingBlank hasLines chunks)).2 h1
    have h3 := dropTrailingBlank_sum_le (fitLongWord width
      (takeGreedy width 0 (dropLeadingBlank hasLines chunks)).1
      (takeGreedy width 0 (dropLeadingBlank hasLines chunks)).2).1
    rw [hline, length_flatten_eq_sumLen]
    omega

theorem wrapChunksF_lines_le (width : Nat) (hw : 1 ≤ width) :
    ∀ (fuel : Nat) (hasLines : Bool) (chunks : List (List Char))
      (line : List Char),
      line ∈ wrapChunksF width fuel hasLines chunks → line.length ≤ width := by
  intro fuel
  induction fuel with
  | zero =>
    intro hasLines chunks line h
    simp [wrapChunksF] at h
  | succ f ih =>
    intro hasLines chunks line h
    cases chunks with
    | nil => simp [wrapChunksF] at h
    | cons c rest =>
      simp only [wrapChunksF] at h
      split at h
      · rename_i l heq
        rcases List.mem_cons.mp h with h1 | h2
        · exact h1 ▸ emitOne_line_le width hw hasLines (c :: rest) l heq
        · exact ih true _ line h2
      · exact ih hasLines _ line h

theorem wrapChunks_lines_le (width : Nat) (hw : 1 ≤ width) (hasLines : Bool)
    (chunks : List (List Char)) (line : List Char)
    (h : line ∈ wrapChunks width hasLines chunks) : line.length ≤ width :=
  wrapChunksF_lines_le width hw _ hasLines chunks line h

theorem fillField_pos (field : Option String) (w : Int) (hw : ¬(w ≤ 0))
    (h : truthy field = true) :
    fillField field w =
      (some ⟨List.intercalate ['\n']
        (textwrapWrapPos (pyStrip (field.getD "")) w.toNat)⟩, none) := by
  simp [fillField, h, textwrapFill, hw]

theorem fillField_pos_snd (field : Option String) (w : Int) (hw : ¬(w ≤ 0)) :
    (fillField field w).2 = none := by
  by_cases h : truthy field = true
  · rw [fillField_pos field w hw h]
  · rw [fillField_falsy field w (by simpa using h)]

/-- C5 amended: with a positive width, a set non-empty short (resp.
long) description is replaced by the greedy rewrap of its stripped text
— the newline-join of the chunk-wrapped lines — and every one of those
lines has length at most the width; in particular a word longer than
the width is broken at the width boundary (`c5_counterexample` shows it
is not left unsplit). -/
theorem c5_amended (d : Docstring) (w : Int) (hw : 1 ≤ w) :
    (∀ s, d.short_description = some s → s ≠ "" →
      (format_docstring_to_pep257 d w).1.short_description =
        some ⟨List.intercalate ['\n'] (textwrapWrapPos (pyStrip s) w.toNat)⟩ ∧
      ∀ line ∈ textwrapWrapPos (pyStrip s) w.toNat, line.length ≤ w.toNat) ∧
    (∀ s, d.long_description = some s → s ≠ "" →
      (format_docstring_to_pep257 d w).1.long_description =
        some ⟨List.intercalate ['\n'] (textwrapWrapPos (pyStrip s) w.toNat)⟩ ∧
      ∀ line ∈ textwrapWrapPos (pyStrip s) w.toNat, line.length ≤ w.toNat) := by
  have hww : ¬(w ≤ 0) := by omega
  have hwn : 1 ≤ w.toNat := by omega
  have hbound : ∀ s : String, ∀ line ∈ textwrapWrapPos (pyStrip s) w.toNat,
      line.length ≤ w.toNat := by
    intro s line hl
    exact wrapChunks_lines_le w.toNat hwn false _ line hl
  refine ⟨fun s hs hne => ⟨?_, hbound s⟩, fun s hs hne => ⟨?_, hbound s⟩⟩
  · have ht : truthy d.short_description = true := by
      rw [hs]
      simpa [truthy] using hne
    unfold format_docstring_to_pep257
    rw [fillField_pos _ w hww ht, hs]
    dsimp only
    rcases hl : fillField d.long_description w with ⟨l, el⟩
    cases el with
    | some e => rfl
    | none => rfl
  · have ht : truthy d.long_description = true := by
      rw [hs]
      simpa [truthy] using hne
    unfold format_docstring_to_pep257
    have he : (fillField d.short_description w).2 = none :=
      fillField_pos_snd d.short_description w hww
    rcases hfs : fillField d.short_description w with ⟨s0, e0⟩
    rw [hfs] at he
    subst he
    dsimp only
    rw [fillField_pos _ w hww ht, hs]
    rfl

/-- The input of claim C5's amended-theorem witness. -/
def c5WitnessInput : Docstring :=
  { short_description := some "This is a test."
    long_description := none
    blank_after_short_description := false
    blank_after_long_description := false
    meta := []
    style := none }

theorem c5_amended_witness :
    (format_docstring_to_pep257 c5WitnessInput 10).1.short_description =
      some "This is a\ntest." ∧
    ∀ line ∈ textwrapWrapPos (pyStrip "This is a test.") 10,
      line.length ≤ 10 := by
  have h := (c5_amended c5WitnessInput 10 (by decide)).1 "This is a test."
    rfl (by decide)
  refine ⟨?_, ?_⟩
  · rw [h.1]
    rfl
  · intro line hl
    exact h.2 line hl

/-! ## C7: idempotence of the normalization pass -/

/-- No two adjacent spaces. -/
def noDoubleSpace : List Char → Bool
  | c1 :: c2 :: rest => !(c1 == ' ' && c2 == ' ') && noDoubleSpace (c2 :: rest)
  | _ => true

/-- "No internal excess whitespace": every character is either a plain
space or not whitespace at all, no two spaces are adjacent, and the
text neither starts nor ends with a space (so it is already stripped). -/
def singleSpaced (cs : List Char) : Bool :=
  cs.all (fun c => c == ' ' || !isPyWS c) && noDoubleSpace cs &&
    (match cs with
     | c :: _ => !(c == ' ')
     | [] => true) &&
    (match cs.getLast? with
     | some c => !(c == ' ')
     | none => true)

/-- A description "already at or under `width` with no internal excess
whitespace": single-spaced, stripped, and fitting on one line of the
target width. -/
def NiceText (s : String) (w : Int) : Prop :=
  singleSpaced s.data = true ∧ (s.data.length : Int) ≤ w

/-- The per-line variant for fragment descriptions, whose lines are
rewrapped one by one: every non-empty line is `NiceText`. -/
def NiceLines (s : String) (w : Int) : Prop :=
  ∀ t ∈ pySplitNL s, t ≠ "" → NiceText t w

theorem singleSpaced_all (cs : List Char) (h : singleSpaced cs = true) :
    ∀ c ∈ cs, (c == ' ') = true ∨ isPyWS c = false := by
  intro c hc
  have h1 : cs.all (fun c => c == ' ' || !isPyWS c) = true := by
    simp only [singleSpaced, Bool.and_eq_true] at h
    exact h.1.1.1
  have h2 : (c == ' ' || !isPyWS c) = true := by
    simpa using List.all_eq_true.mp h1 c hc
  cases hb : c == ' ' with
  | true => exact Or.inl rfl
  | false =>
    rw [hb] at h2
    simp only [Bool.false_or] at h2
    exact Or.inr (by simpa using h2)

theorem singleSpaced_head (cs : List Char) (h : singleSpaced cs = true) :
    ∀ c rest, cs = c :: rest → isPyWS c = false := by
  intro c rest hcs
  have hh : (c == ' ') = false := by
    simp only [singleSpaced, Bool.and_eq_true] at h
    have := h.1.2
    rw [hcs] at this
    simpa using this
  rcases singleSpaced_all cs h c (by rw [hcs]; simp) with h1 | h1
  · rw [hh] at h1
    cases h1
  · exact h1

theorem singleSpaced_last (cs : List Char) (h : singleSpaced cs = true) :
    ∀ c, cs.getLast? = some c → isPyWS c = false := by
  intro c hc
  have hh : (c == ' ') = false := by
    simp only [singleSpaced, Bool.and_eq_true] at h
    have := h.2
    rw [hc] at this
    simpa using this
  rcases singleSpaced_all cs h c (List.mem_of_mem_getLast? hc) with h1 | h1
  · rw [hh] at h1
    cases h1
  · exact h1

theorem dropWhile_eq_self_of_head (p : Char → Bool) (cs : List Char)
    (h : ∀ c rest, cs = c :: rest → p c = false) :
    cs.dropWhile p = cs := by
  cases cs with
  | nil => rfl
  | cons c rest => simp [List.dropWhile_cons, h c rest rfl]

theorem pyStripList_eq_self (cs : List Char)
    (hhead : ∀ c rest, cs = c :: rest → isPyWS c = false)
    (hlast : ∀ c, cs.getLast? = some c → isPyWS c = false) :
    pyStripList cs = cs := by
  unfold pyStripList
  rw [dropWhile_eq_self_of_head _ _ hhead]
  rw [dropWhile_eq_self_of_head _ cs.reverse ?_]
  · exact List.reverse_reverse cs
  · intro c rest hr
    apply hlast
    rw [← List.head?_reverse, hr]
    rfl

theorem pyStrip_eq_self (s : String) (h : singleSpaced s.data = true) :
    pyStrip s = s := by
  have := pyStripList_eq_self s.data (singleSpaced_head _ h) (singleSpaced_last _ h)
  unfold pyStrip
  rw [this]

theorem expandtabsAux_eq_self (cs : List Char)
    (h : ∀ c ∈ cs, (c == '\t') = false) :
    ∀ col, expandtabsAux cs col = cs := by
  induction cs with
  | nil => intro col; rfl
  | cons c rest ih =>
    intro col
    have hc := h c (by simp)
    simp only [expandtabsAux, hc]
    rw [if_neg (by simp)]
    by_cases hnl : (c == '\n' || c == '\r') = true
    · rw [if_pos hnl, ih (fun x hx => h x (by simp [hx])) 0]
    · rw [if_neg hnl, ih (fun x hx => h x (by simp [hx])) (col + 1)]

theorem map_mungeChar_eq_self (cs : List Char)
    (h : ∀ c ∈ cs, (c == ' ') = true ∨ isPyWS c = false) :
    cs.map mungeChar = cs := by
  induction cs with
  | nil => rfl
  | cons c rest ih =>
    have hc : mungeChar c = c := by
      rcases h c (by simp) with h1 | h1
      · have : c = ' ' := by simpa using h1
        rw [this]
        rfl
      · simp [mungeChar, h1]
    simp only [List.map_cons, hc, ih (fun x hx => h x (by simp [hx]))]

theorem mungeWhitespace_eq_self (cs : List Char)
    (h : ∀ c ∈ cs, (c == ' ') = true ∨ isPyWS c = false) :
    mungeWhitespace cs = cs := by
  have htab : ∀ c ∈ cs, (c == '\t') = false := by
    intro c hc
    rcases h c hc with h1 | h1
    · have : c = ' ' := by simpa using h1
      rw [this]
      rfl
    · cases hb : c == '\t'
      · rfl
      · have : c = '\t' := by simpa using hb
        rw [this] at h1
        simp [isPyWS] at h1
  unfold mungeWhitespace
  rw [expandtabsAux_eq_self cs htab 0, map_mungeChar_eq_self cs h]

theorem drop_length_takeWhile (p : Char → Bool) (l : List Char) :
    l.drop (l.takeWhile p).length = l.dropWhile p := by
  induction l with
  | nil => rfl
  | cons c rest ih =>
    by_cases h : p c
    · simp [List.takeWhile_cons, List.dropWhile_cons, h, ih]
    · simp [List.takeWhile_cons, List.dropWhile_cons, h]

theorem scanWord_append (acc cs : List Char) :
    (scanWord acc cs).1 ++ (scanWord acc cs).2 = acc.reverse ++ cs := by
  induction cs generalizing acc with
  | nil => simp [scanWord]
  | cons c rest ih =>
    simp only [scanWord]
    split
    · simp
    · split
      · simp
      · rw [ih (c :: acc)]
        simp

theorem splitWordRunF_flatten :
    ∀ (fuel : Nat) (prev : Option Char) (cs : List Char),
      cs.length < fuel → (splitWordRunF fuel prev cs).flatten = cs := by
  intro fuel
  induction fuel with
  | zero => intro prev cs h; omega
  | succ f ih =>
    intro prev cs h
    cases cs with
    | nil => rfl
    | cons c rest =>
      simp only [splitWordRunF]
      split
      · rw [List.flatten_cons]
        have hlen : (rest.drop
            (rest.takeWhile (fun x => x == '-')).length).length ≤ rest.length := by
          simp [List.length_drop]
        simp only [List.length_cons] at h
        rw [ih (some '-') _ (by omega)]
        simp [drop_length_takeWhile, List.takeWhile_append_dropWhile]
      · rw [List.flatten_cons]
        have hs := scanWord_rest_length_le [c] rest
        simp only [List.length_cons] at h
        rw [ih _ _ (by omega)]
        simpa using scanWord_append [c] rest

theorem splitWordRunF_ne_nil :
    ∀ (fuel : Nat) (prev : Option Char) (cs : List Char),
      cs.length < fuel → ∀ ch ∈ splitWordRunF fuel prev cs, ch ≠ [] := by
  intro fuel
  induction fuel with
  | zero => intro prev cs h; omega
  | succ f ih =>
    intro prev cs h ch hch
    cases cs with
    | nil => simp [splitWordRunF] at hch
    | cons c rest =>
      simp only [splitWordRunF] at hch
      simp only [List.length_cons] at h
      split at hch
      · rcases List.mem_cons.mp hch with h1 | h1
        · rw [h1]
          simp
        · have hlen : (rest.drop
              (rest.takeWhile (fun x => x == '-')).length).length ≤
              rest.length := by
            simp [List.length_drop]
          exact ih (some '-') _ (by omega) ch h1
      · rcases List.mem_cons.mp hch with h1 | h1
        · rw [h1]
          exact scanWord_fst_ne_nil [c] rest (by simp)
        · have hs := scanWord_rest_length_le [c] rest
          exact ih _ _ (by omega) ch h1

theorem splitWordRun_flatten (prev : Option Char) (cs : List Char) :
    (splitWordRun prev cs).flatten = cs :=
  splitWordRunF_flatten _ prev cs (Nat.lt_succ_self _)

theorem splitWordRun_ne_nil (prev : Option Char) (cs : List Char) :
    ∀ ch ∈ splitWordRun prev cs, ch ≠ [] :=
  splitWordRunF_ne_nil _ prev cs (Nat.lt_succ_self _)

theorem splitChunksAuxF_flatten :
    ∀ (fuel : Nat) (cs : List Char),
      cs.length < fuel → (splitChunksAuxF fuel cs).flatten = cs := by
  intro fuel
  induction fuel with
  | zero => intro cs h; omega
  | succ f ih =>
    intro cs h
    cases cs with
    | nil => rfl
    | cons c rest =>
      have hd1 := (List.dropWhile_sublist (l := rest) isPyWS).length_le
      have hd2 := (List.dropWhile_sublist (l := rest) (fun x => !isPyWS x)).length_le
      simp only [List.length_cons] at h
      simp only [splitChunksAuxF]
      split
      · rw [List.flatten_cons, ih _ (by omega)]
        simp [List.takeWhile_append_dropWhile]
      · rw [List.flatten_append, splitWordRun_flatten, ih _ (by omega)]
        simp [List.takeWhile_append_dropWhile]

theorem splitChunksAuxF_ne_nil :
    ∀ (fuel : Nat) (cs : List Char),
      cs.length < fuel → ∀ ch ∈ splitChunksAuxF fuel cs, ch ≠ [] := by
  intro fuel
  induction fuel with
  | zero => intro cs h; omega
  | succ f ih =>
    intro cs h ch hch
    cases cs with
    | nil => simp [splitChunksAuxF] at hch
    | cons c rest =>
      have hd1 := (List.dropWhile_sublist (l := rest) isPyWS).length_le
      have hd2 := (List.dropWhile_sublist (l := rest) (fun x => !isPyWS x)).length_le
      simp only [List.length_cons] at h
      simp only [splitChunksAuxF] at hch
      split at hch
      · rcases List.mem_cons.mp hch with h1 | h1
        · rw [h1]
          simp
        · exact ih _ (by omega) ch h1
      · rcases List.mem_append.mp hch with h1 | h1
        · exact splitWordRun_ne_nil none _ ch h1
        · exact ih _ (by omega) ch h1

theorem splitChunksAux_flatten (cs : List Char) :
    (splitChunksAux cs).flatten = cs :=
  splitChunksAuxF_flatten _ cs (Nat.lt_succ_self _)

theorem splitChunksAux_ne_nil (cs : List Char) :
    ∀ ch ∈ splitChunksAux cs, ch ≠ [] :=
  splitChunksAuxF_ne_nil _ cs (Nat.lt_succ_self _)

theorem flatten_getLast? (l : List (List Char)) (hne : ∀ x ∈ l, x ≠ []) :
    ∀ ch, l.getLast? = some ch → l.flatten.getLast? = ch.getLast? := by
  induction l with
  | nil => intro ch h; cases h
  | cons x rest ih =>
    intro ch h
    cases rest with
    | nil =>
      have hx : ch = x := by simpa using h.symm
      subst hx
      simp
    | cons y rest2 =>
      have hch : (y :: rest2).getLast? = some ch := by
        simpa [List.getLast?_cons_cons] using h
      have hflne : (y :: rest2).flatten ≠ [] := by
        intro hfl
        have := (List.flatten_eq_nil_iff.mp hfl) y (by simp)
        exact hne y (by simp) this
      rw [List.flatten_cons, List.getLast?_append_of_ne_nil x hflne]
      exact ih (fun z hz => hne z (by simp [hz])) ch hch

theorem last_chunk_not_blank (chunks : List (List Char)) (cs : List Char)
    (hfl : chunks.flatten = cs) (hne : ∀ x ∈ chunks, x ≠ [])
    (hlast : ∀ c, cs.getLast? = some c → isPyWS c = false)
    (lastC : List Char) (h : chunks.getLast? = some lastC) :
    lastC.all isPyWS = false := by
  have h1 := flatten_getLast? chunks hne lastC h
  rw [hfl] at h1
  have hlc : lastC ≠ [] := hne lastC (List.mem_of_mem_getLast? h)
  obtain ⟨c, hc⟩ : ∃ c, lastC.getLast? = some c := by
    cases lastC with
    | nil => exact absurd rfl hlc
    | cons a l =>
      exact Option.isSome_iff_exists.mp (by simp [List.getLast?_isSome])
  have hcws := hlast c (by rw [h1, hc])
  have hmem : c ∈ lastC := List.mem_of_mem_getLast? hc
  cases hall : lastC.all isPyWS with
  | false => rfl
  | true =>
    have := List.all_eq_true.mp hall c hmem
    rw [this] at hcws
    cases hcws

theorem takeGreedy_all (width : Nat) (curLen : Nat) (chunks : List (List Char))
    (h : curLen + sumLen chunks ≤ width) :
    takeGreedy width curLen chunks = (chunks, []) := by
  induction chunks generalizing curLen with
  | nil => rfl
  | cons c rest ih =>
    rw [sumLen_cons] at h
    have hfit : curLen + c.length ≤ width := by omega
    simp only [takeGreedy, if_pos hfit]
    rw [ih (curLen + c.length) (by omega)]

theorem wrapChunksF_nil (width fuel : Nat) (hasLines : Bool) :
    wrapChunksF width fuel hasLines [] = [] := by
  cases fuel <;> rfl

/-- A stripped, single-spaced text that fits within the width is a
fixed point of `textwrap.fill`: all of its chunks fit on the first
line, so the wrap returns exactly one line, the text itself. -/
theorem textwrapFill_fixed (s : String) (w : Int)
    (hsp : singleSpaced s.data = true) (hlen : (s.data.length : Int) ≤ w)
    (hne : s.data ≠ []) :
    textwrapFill s w = Except.ok s := by
  have hw : 1 ≤ w := by
    have h1 : 1 ≤ s.data.length := by
      cases hd : s.data with
      | nil => exact absurd hd hne
      | cons a l => simp
    omega
  have hww : ¬(w ≤ 0) := by omega
  have hall := singleSpaced_all s.data hsp
  have hlast := singleSpaced_last s.data hsp
  have hmunge : mungeWhitespace s.data = s.data :=
    mungeWhitespace_eq_self s.data hall
  have hfl : (splitChunksAux s.data).flatten = s.data :=
    splitChunksAux_flatten s.data
  have hnn := splitChunksAux_ne_nil s.data
  have hcne : splitChunksAux s.data ≠ [] := by
    intro h0
    rw [h0] at hfl
    exact hne hfl.symm
  have hsum : sumLen (splitChunksAux s.data) ≤ w.toNat := by
    have h2 : (splitChunksAux s.data).flatten.length = s.data.length := by
      rw [hfl]
    rw [length_flatten_eq_sumLen] at h2
    omega
  have hemit : emitOne w.toNat false (splitChunksAux s.data) =
      (some s.data, []) := by
    have h1 : dropLeadingBlank false (splitChunksAux s.data) =
        splitChunksAux s.data := by
      obtain ⟨c, rest, hcr⟩ := List.exists_cons_of_ne_nil hcne
      rw [hcr]
      simp [dropLeadingBlank]
    have h2 : takeGreedy w.toNat 0 (splitChunksAux s.data) =
        (splitChunksAux s.data, []) :=
      takeGreedy_all _ 0 _ (by omega)
    have h4 : dropTrailingBlank (splitChunksAux s.data) =
        splitChunksAux s.data := by
      unfold dropTrailingBlank
      cases hgl : (splitChunksAux s.data).getLast? with
      | none => rfl
      | some lastC =>
        have hb := last_chunk_not_blank _ s.data hfl hnn hlast lastC hgl
        dsimp only
        simp [hb]
    have h5 : (splitChunksAux s.data).isEmpty = false := by
      cases hd : splitChunksAux s.data with
      | nil => exact absurd hd hcne
      | cons a l => rfl
    simp only [emitOne, h1, h2]
    simp only [fitLongWord, h4, h5]
    rw [hfl]
    simp only [Bool.false_eq_true, if_false]
  have hwrap : wrapChunks w.toNat false (splitChunksAux s.data) = [s.data] := by
    unfold wrapChunks
    obtain ⟨c, rest, hcr⟩ := List.exists_cons_of_ne_nil hcne
    rw [hcr] at hemit ⊢
    simp only [wrapChunksF, hemit, wrapChunksF_nil]
  unfold textwrapFill
  rw [if_neg hww]
  unfold textwrapWrapPos splitChunks
  rw [hmunge, hwrap]
  have hsingle : ['\n'].intercalate [s.data] = s.data := by
    simp [List.intercalate, List.intersperse]
  rw [hsingle]

theorem str_data_ne_nil (s : String) (h : s ≠ "") : s.data ≠ [] := by
  intro hd
  apply h
  cases s with
  | mk data =>
    simp only at hd
    rw [hd]

/-- A field whose content is `NiceText` (or unset, or empty) is left
unchanged by `fillField`, with no error. -/
theorem fillField_fixed (field : Option String) (w : Int)
    (h : ∀ s, field = some s → s ≠ "" → NiceText s w) :
    fillField field w = (field, none) := by
  cases field with
  | none => rfl
  | some s =>
    by_cases hs : s = ""
    · subst hs
      rfl
    · obtain ⟨hsp, hlen⟩ := h s rfl hs
      have ht : truthy (some s) = true := by simp [truthy, hs]
      have hstrip : pyStrip s = s := pyStrip_eq_self s hsp
      simp only [fillField, ht, if_pos]
      simp only [Option.getD_some, hstrip]
      rw [textwrapFill_fixed s w hsp hlen (str_data_ne_nil s hs)]

theorem dropWhile_dropWhile (p : Char → Bool) (l : List Char) :
    (l.dropWhile p).dropWhile p = l.dropWhile p := by
  induction l with
  | nil => rfl
  | cons c rest ih =>
    by_cases h : p c
    · simp [List.dropWhile_cons, h, ih]
    · simp [List.dropWhile_cons, h]

theorem dropWhile_eq_self_head (p : Char → Bool) (l : List Char)
    (h : l.dropWhile p = l) :
    ∀ c rest, l = c :: rest → p c = false := by
  intro c rest hl
  subst hl
  cases hp : p c with
  | false => rfl
  | true =>
    rw [List.dropWhile_cons, if_pos hp] at h
    have := congrArg List.length h
    have hle := (List.dropWhile_sublist (l := rest) p).length_le
    simp at this
    omega

theorem pyStripList_idem (cs : List Char) :
    pyStripList (pyStripList cs) = pyStripList cs := by
  have hA : (cs.dropWhile isPyWS).dropWhile isPyWS = cs.dropWhile isPyWS :=
    dropWhile_dropWhile isPyWS cs
  have hsplit : cs.dropWhile isPyWS =
      ((cs.dropWhile isPyWS).reverse.dropWhile isPyWS).reverse ++
        ((cs.dropWhile isPyWS).reverse.takeWhile isPyWS).reverse := by
    have h0 := List.takeWhile_append_dropWhile isPyWS (cs.dropWhile isPyWS).reverse
    have h1 := congrArg List.reverse h0
    simp only [List.reverse_append, List.reverse_reverse] at h1
    exact h1.symm
  have hBdrop : (pyStripList cs).dropWhile isPyWS = pyStripList cs := by
    cases hB : pyStripList cs with
    | nil => rfl
    | cons b brest =>
      apply dropWhile_eq_self_of_head
      intro c rest hc
      rw [hc] at hB
      -- the head of pyStripList cs is the head of cs.dropWhile isPyWS
      have hAeq : cs.dropWhile isPyWS = c :: (rest ++
          ((cs.dropWhile isPyWS).reverse.takeWhile isPyWS).reverse) := by
        have hBdef : pyStripList cs =
            ((cs.dropWhile isPyWS).reverse.dropWhile isPyWS).reverse := rfl
        calc cs.dropWhile isPyWS
            = ((cs.dropWhile isPyWS).reverse.dropWhile isPyWS).reverse ++
                ((cs.dropWhile isPyWS).reverse.takeWhile isPyWS).reverse :=
              hsplit
          _ = (c :: rest) ++
                ((cs.dropWhile isPyWS).reverse.takeWhile isPyWS).reverse := by
              rw [← hBdef, hB]
          _ = c :: (rest ++
                ((cs.dropWhile isPyWS).reverse.takeWhile isPyWS).reverse) := by
              simp
      exact dropWhile_eq_self_head isPyWS (cs.dropWhile isPyWS) hA c _ hAeq
  have hBrev : (pyStripList cs).reverse.dropWhile isPyWS =
      (pyStripList cs).reverse := by
    have : (pyStripList cs).reverse =
        (cs.dropWhile isPyWS).reverse.dropWhile isPyWS := by
      unfold pyStripList
      rw [List.reverse_reverse]
    rw [this]
    exact dropWhile_dropWhile isPyWS (cs.dropWhile isPyWS).reverse
  show ((((pyStripList cs).dropWhile isPyWS).reverse).dropWhile isPyWS).reverse =
    pyStripList cs
  rw [hBdrop, hBrev, List.reverse_reverse]

theorem pyStrip_idem (s : String) : pyStrip (pyStrip s) = pyStrip s := by
  unfold pyStrip
  rw [pyStripList_idem]

theorem stripArgs_idem (l : List String) :
    stripArgs (stripArgs l) = stripArgs l := by
  unfold stripArgs
  rw [List.filter_map]
  have hkeep : ((l.filter (fun arg => !(pyStrip arg == ""))).filter
      ((fun arg => !(pyStrip arg == "")) ∘ pyStrip)) =
      l.filter (fun arg => !(pyStrip arg == "")) := by
    apply List.filter_eq_self.mpr
    intro a ha
    have h1 := (List.mem_filter.mp ha).2
    simpa [Function.comp, pyStrip_idem] using h1
  rw [hkeep, List.map_map]
  apply List.map_congr_left
  intro a _
  exact pyStrip_idem a

theorem processMeta_idem (w : Int) (m m1 : DocstringMeta)
    (hp : processMeta w m = (m1, none)) :
    processMeta w m1 = (m1, none) := by
  by_cases h : truthy m.description = true
  · rw [processMeta_desc_error w m h] at hp
    simp at hp
  · have h' : truthy m.description = false := by simpa using h
    rw [processMeta_no_desc w m h'] at hp
    have hm1 : m1 = if m.args.isEmpty then m
        else m.setArgs (stripArgs m.args) := by
      injection hp with h1 _
      exact h1.symm
    have hdesc1 : truthy m1.description = false := by
      rw [hm1]
      split
      · exact h'
      · rw [DocstringMeta.description_setArgs]
        exact h'
    rw [processMeta_no_desc w m1 hdesc1]
    by_cases ha : m.args.isEmpty
    · rw [hm1, if_pos ha, if_pos ha]
    · rw [hm1, if_neg ha, DocstringMeta.args_setArgs]
      by_cases hA : (stripArgs m.args).isEmpty
      · rw [if_pos hA]
      · rw [if_neg hA, stripArgs_idem, DocstringMeta.setArgs_setArgs]

theorem processMetaList_idem (w : Int) (ms : List DocstringMeta) :
    processMetaList w (processMetaList w ms).1 = processMetaList w ms := by
  induction ms with
  | nil => rfl
  | cons m rest ih =>
    rcases hp : processMeta w m with ⟨m1, e⟩
    cases e with
    | some err =>
      have hm : m1 = m := by
        by_cases h : truthy m.description = true
        · rw [processMeta_desc_error w m h] at hp
          injection hp with h1 _
          exact h1.symm
        · rw [processMeta_no_desc w m (by simpa using h)] at hp
          injection hp with _ h2
          cases h2
      subst hm
      simp only [processMetaList, hp]
    | none =>
      have h1 := processMeta_idem w m m1 hp
      simp only [processMetaList, hp, h1, ih]

/-- C7: for a Docstring whose short and long descriptions (when set and
non-empty) are already at or under the width with no internal excess
whitespace, and whose fragment descriptions likewise have no excess
whitespace line by line, the normalization pass is idempotent: applying
it to its own output reproduces the same docstring state and the same
error outcome. -/
theorem c7_idempotent (d : Docstring) (w : Int)
    (hs : ∀ s, d.short_description = some s → s ≠ "" → NiceText s w)
    (hl : ∀ s, d.long_description = some s → s ≠ "" → NiceText s w)
    (hm : ∀ m ∈ d.meta, ∀ s, m.description = some s → s ≠ "" → NiceLines s w) :
    format_docstring_to_pep257 (format_docstring_to_pep257 d w).1 w =
      format_docstring_to_pep257 d w := by
  have hfs := fillField_fixed d.short_description w hs
  have hfl := fillField_fixed d.long_description w hl
  have hfmt : format_docstring_to_pep257 d w =
      ({ d with meta := (processMetaList w d.meta).1 },
        (processMetaList w d.meta).2) := by
    unfold format_docstring_to_pep257
    rw [hfs]
    dsimp only
    rw [hfl]
  rw [hfmt]
  unfold format_docstring_to_pep257
  dsimp only
  rw [hfs]
  dsimp only
  rw [hfl]
  dsimp only
  rw [processMetaList_idem]

/-- The input of claim C7's witness. -/
def c7WitnessInput : Docstring :=
  { short_description := some "ab cd"
    long_description := none
    blank_after_short_description := false
    blank_after_long_description := false
    meta := [DocstringMeta.param ["  a ", ""] none "a" none none none]
    style := none }

theorem c7_witness :
    format_docstring_to_pep257
        (format_docstring_to_pep257 c7WitnessInput 10).1 10 =
      format_docstring_to_pep257 c7WitnessInput 10 :=
  c7_idempotent c7WitnessInput 10
    (by
      intro s hs hne
      have h : s = "ab cd" := by
        have : (some "ab cd" : Option String) = some s := hs
        simpa using this.symm
      subst h
      exact ⟨by decide, by decide⟩)
    (by
      intro s hs hne
      simp [c7WitnessInput] at hs)
    (by
      intro m hm' s hs hne
      have hmem : m = DocstringMeta.param ["  a ", ""] none "a" none none none := by
        simpa [c7WitnessInput] using hm'
      rw [hmem] at hs
      simp [DocstringMeta.description] at hs)
